import Mathlib

/-!
Verification of the GitID managed-section config editor and identity registry.

The Go sources are shallowly embedded: strings are lists of characters
(`Str`), the file system is a record holding the optional raw text of the
global git config plus a per-identity credential store, and every Go string
helper used by the code (strings.TrimSpace, strings.Index, strings.LastIndex,
strings.Split, strings.Contains, strings.HasPrefix, strings.HasSuffix) is
re-implemented with the same semantics.  Two deliberate modelling choices are
documented at their definitions: the third-party ini library is modelled as an
exact store keyed by identity name, and filepath.Join is modelled as plain
concatenation with a separator (no path cleaning).  The Go append calls in
addIncludeIfEntry share a backing array with the slice returned by
strings.Split (whose capacity equals its length); this aliasing is modelled
exactly by a small slice simulator, because it is observable in the output.
-/

namespace GitID

/-- Strings are modelled as lists of characters.  Go indexes strings by byte;
all fixed patterns used by the program are ASCII and matching only ever slices
at pattern boundaries, so character indexing produces the same text. -/
abbrev Str := List Char

/-- Characters stripped by Go strings.TrimSpace (unicode.IsSpace). -/
def isSpaceChar (c : Char) : Bool :=
  c = ' ' || c = '\t' || c = '\n' || c = '\x0b' || c = '\x0c' || c = '\r' ||
  c = '\u0085' || c = ' '

/-- Go strings.TrimSpace: drop leading and trailing whitespace. -/
def trimSpace (s : Str) : Str :=
  ((s.dropWhile isSpaceChar).reverse.dropWhile isSpaceChar).reverse

/-- Go strings.HasPrefix. -/
def isPrefOf : Str → Str → Bool
  | [], _ => true
  | _ :: _, [] => false
  | a :: as, b :: bs => a = b && isPrefOf as bs

/-- Go strings.HasSuffix. -/
def hasSuffGo (s suf : Str) : Bool :=
  isPrefOf suf.reverse s.reverse

/-- Index of the first occurrence of sub in the suffix of the scanned string,
offset by the accumulator i; none when absent.  Mirrors strings.Index. -/
def firstIdxA (sub : Str) : Str → Nat → Option Nat
  | [], i => if isPrefOf sub [] then some i else none
  | c :: t, i => if isPrefOf sub (c :: t) then some i else firstIdxA sub t (i + 1)

/-- Go strings.Index, with none for the Go result -1. -/
def firstIdx (sub s : Str) : Option Nat :=
  firstIdxA sub s 0

/-- Go strings.Index as an integer (-1 when absent). -/
def indexGo (s sub : Str) : Int :=
  match firstIdx sub s with
  | some i => (i : Int)
  | none => -1

/-- Go strings.Contains. -/
def containsSub (s sub : Str) : Bool :=
  (firstIdx sub s).isSome

/-- Scan keeping the latest match position; mirrors strings.LastIndex for a
non-empty pattern. -/
def lastIdxA (sub : Str) : Str → Nat → Option Nat → Option Nat
  | [], _, best => best
  | c :: t, i, best =>
      lastIdxA sub t (i + 1) (if isPrefOf sub (c :: t) then some i else best)

/-- Go strings.LastIndex as an integer (-1 when absent); the program only ever
calls it with a non-empty pattern. -/
def lastIndexGo (s sub : Str) : Int :=
  match lastIdxA sub s 0 none with
  | some i => (i : Int)
  | none => -1

/-- Fuel-bounded splitting loop: every recursion step consumes at least one
character of the scanned string (the occurrence index plus the non-empty
separator length), so fuel equal to the string length always suffices.  The
fuel-zero branch is reached only on the empty remainder, where it returns
exactly what the recursion would. -/
def splitOnSubF (sep : Str) : Nat → Str → List Str
  | 0, s => [s]
  | fuel + 1, s =>
      match firstIdx sep s with
      | none => [s]
      | some i => s.take i :: splitOnSubF sep fuel (s.drop (i + sep.length))

/-- Go strings.Split around each leftmost non-overlapping occurrence of sep.
The program never calls it with an empty separator, for which Go would split
into runes; that case is mapped to the whole string. -/
def splitOnSub (sep s : Str) : List Str :=
  if sep.length = 0 then [s] else splitOnSubF sep s.length s

/-- Go strings.Split(data, hidden-newline): file text to lines.  Splitting the
empty string yields one empty line, as in Go. -/
def splitLines : Str → List Str
  | [] => [[]]
  | c :: t =>
      if c = '\n' then [] :: splitLines t
      else
        match splitLines t with
        | [] => [[c]]
        | h :: r => (c :: h) :: r

/-- Go strings.Join(lines, newline). -/
def joinLines : List Str → Str
  | [] => []
  | [l] => l
  | l :: ls => l ++ '\n' :: joinLines ls

/-- Go slice expression line[a:b] for integer endpoints (indices produced by
strings.Index arithmetic); the program guards 0 ≤ a < b ≤ length. -/
def strSliceI (s : Str) (a b : Int) : Str :=
  (s.take b.toNat).drop a.toNat

/-- Elements of l at indices a ≤ i < b, as read by a Go for-loop running i
from a while i < b; empty when b < a (in particular when b = -1). -/
def intSlice (l : List Str) (a b : Int) : List Str :=
  (l.take b.toNat).drop a.toNat

/-- Single quote character, used in the Go error format strings. -/
def sq : Char := Char.ofNat 39

/-- Identity record from internal/identity/manager.go. -/
structure Identity where
  Name : Str
  GitName : Str
  Email : Str
  Paths : List Str
deriving DecidableEq, Repr

/-- Credential file body: the user section written by createIdentityFile and
read back by loadIdentityFile.  The third-party ini library is modelled as an
exact store of the two values. -/
structure Cred where
  gitName : Str
  email : Str
deriving DecidableEq, Repr

/-- File system state owned by the config editor: the raw text of the global
git config (none when the file does not exist) and the credential files.
Credential files live at filepath.Join(identityDir, ".gitconfig-gitid-" ++
name); for the fixed identityDir that path is injective in the name, so the
store is keyed by identity name. -/
structure FS where
  gitconfig : Option Str
  creds : List (Str × Cred)
deriving DecidableEq, Repr

/-- Association-list lookup standing in for a Go map read. -/
def lookupAssoc (l : List (Str × α)) (k : Str) : Option α :=
  match l with
  | [] => none
  | (k1, v) :: t => if k1 = k then some v else lookupAssoc t k

/-- Association-list update standing in for a Go map assignment. -/
def updateAssoc (l : List (Str × α)) (k : Str) (v : α) : List (Str × α) :=
  match l with
  | [] => [(k, v)]
  | (k1, v1) :: t => if k1 = k then (k, v) :: t else (k1, v1) :: updateAssoc t k v

/-- Association-list removal standing in for deleting a file / map entry. -/
def removeAssoc (l : List (Str × α)) (k : Str) : List (Str × α) :=
  match l with
  | [] => []
  | (k1, v1) :: t => if k1 = k then removeAssoc t k else (k1, v1) :: removeAssoc t k

/-- GitIDSectionStart marker line. -/
def startMarker : Str := "# GitID Managed Section - Do not edit manually".data

/-- GitIDSectionEnd marker line. -/
def endMarker : Str := "# End GitID Managed Section".data

/-- Fixed credential file name template ".gitconfig-gitid-". -/
def credTag : Str := ".gitconfig-gitid-".data

/-- Literal prefix of a conditional-include header line. -/
def includeIfPre : Str := "[includeIf \"gitdir:".data

/-- Pattern "gitdir:" searched by the load parser. -/
def gitdirStr : Str := "gitdir:".data

/-- Closing pattern of a header line. -/
def quoteBracket : Str := "\"]".data

/-- Pattern "path = " searched by the load parser. -/
def pathEq : Str := "path = ".data

/-- Go filepath.Join for the two-component calls made by the program, without
the path cleaning Go applies; the two coincide whenever the directory has no
trailing separator and the file name introduces no dot segments or doubled
separators. -/
def filepathJoin (dir file : Str) : Str :=
  dir ++ "/".data ++ file

/-- readGitConfig: lines of the global config, an empty slice when the file
does not exist.  Other file-system errors are not modelled. -/
def readGitConfig (fs : FS) : List Str :=
  match fs.gitconfig with
  | none => []
  | some data => splitLines data

/-- writeGitConfig: full-file rewrite of the joined lines. -/
def writeGitConfig (lines : List Str) (fs : FS) : FS :=
  { fs with gitconfig := some (joinLines lines) }

/-- findGitIDSection scan: the start index is overwritten by every start
marker seen, and the scan stops at the first end marker. -/
def findAux : List Str → Nat → Int → Int × Int
  | [], _, s => (s, -1)
  | l :: ls, i, s =>
      if trimSpace l = startMarker then findAux ls (i + 1) (i : Int)
      else if trimSpace l = endMarker then (s, (i : Int))
      else findAux ls (i + 1) s

/-- findGitIDSection from the Go source. -/
def findGitIDSection (lines : List Str) : Int × Int :=
  findAux lines 0 (-1)

/-- loadIdentityFile: ini.Load of the credential file, failing (none) when the
file is absent; the Paths field is set by the caller. -/
def loadIdentityFile (fs : FS) (name : Str) : Option Identity :=
  (lookupAssoc fs.creds name).map fun c =>
    { Name := name, GitName := c.gitName, Email := c.email, Paths := [] }

/-- Parser state of the LoadExistingIdentities loop. -/
structure LoadSt where
  identities : List (Str × Identity)
  currentPaths : List Str
deriving DecidableEq, Repr

/-- Body of the LoadExistingIdentities for-loop for one line of the managed
section.  Both branch conditions are tested on the trimmed line, in order; a
line can enter both branches. -/
def parseGitIDLine (fs : FS) (st : LoadSt) (rawLine : Str) : LoadSt :=
  let line := trimSpace rawLine
  let st :=
    if isPrefOf includeIfPre line then
      let start : Int := indexGo line gitdirStr + 7
      let stop : Int := lastIndexGo line quoteBracket
      if start < stop then
        let path := strSliceI line start stop
        let path := if hasSuffGo path "/".data then path.dropLast else path
        { st with currentPaths := st.currentPaths ++ [path] }
      else st
    else st
  if containsSub line pathEq && containsSub line credTag then
    let parts := splitOnSub credTag line
    if parts.length > 1 then
      let currentIdentity := trimSpace (parts.getD 1 [])
      let st1 :=
        match loadIdentityFile fs currentIdentity with
        | some ident =>
            { st with
              identities := updateAssoc st.identities currentIdentity
                { ident with Paths := st.currentPaths } }
        | none => st
      { st1 with currentPaths := [] }
    else st
  else st

/-- Result of LoadExistingIdentities; the Go function returns a nil error on
every path, which the err field records faithfully. -/
structure LoadResult where
  identities : List (Str × Identity)
  err : Option Str
deriving DecidableEq, Repr

/-- LoadExistingIdentities from the Go source.  A read failure and a missing
section both return the empty map with a nil error; otherwise the lines
strictly between the found indices are scanned in order. -/
def LoadExistingIdentities (fs : FS) : LoadResult :=
  let content := readGitConfig fs
  let se := findGitIDSection content
  if se.1 = -1 then ⟨[], none⟩
  else
    let st := (intSlice content (se.1 + 1) se.2).foldl (parseGitIDLine fs) ⟨[], []⟩
    ⟨st.identities, none⟩

/-- Path written for one identity path: a leading tilde-slash is expanded with
the home directory, exactly as in addIncludeIfEntry. -/
def expandPathGo (hd p : Str) : Str :=
  if isPrefOf "~/".data p then filepathJoin hd (p.drop 2) else p

/-- Expanded path with the trailing separator addIncludeIfEntry guarantees. -/
def ensureSlash (p : Str) : Str :=
  if hasSuffGo p "/".data then p else p ++ "/".data

/-- Conditional-include header line written for one path. -/
def headerLine (hd p : Str) : Str :=
  includeIfPre ++ ensureSlash (expandPathGo hd p) ++ quoteBracket

/-- Path line written for one identity (identityDir is the home directory). -/
def pathLine (hd name : Str) : Str :=
  "    path = ".data ++ filepathJoin hd (credTag ++ name)

/-- Pairs of lines appended by the addIncludeIfEntry loop, one header and one
path line per identity path, in order. -/
def newEntries (hd : Str) (ident : Identity) : List Str :=
  ident.Paths.foldl (fun acc p => acc ++ [headerLine hd p, pathLine hd ident.Name]) []

/-- State of a Go string-slice append chain whose destination initially shares
the backing array of the slice returned by strings.Split (capacity equal to
length).  arr is the current contents of that array, cur the logical slice
being built, and shared whether cur still aliases arr. -/
structure GoSlice where
  arr : List Str
  cur : List Str
  shared : Bool
deriving DecidableEq, Repr

/-- One Go append call.  While the destination shares the array and the
result still fits in its capacity, the appended items overwrite the array in
place; the first append that would overflow copies the slice into a fresh
array, after which the original array is never touched again.  Appending
several items is a single call: Go checks the total length first, so a call
either writes all its items in place or none of them. -/
def goAppend (g : GoSlice) (items : List Str) : GoSlice :=
  if g.shared = true ∧ g.cur.length + items.length ≤ g.arr.length then
    { arr := g.arr.take g.cur.length ++ items ++ g.arr.drop (g.cur.length + items.length),
      cur := g.cur ++ items, shared := true }
  else { g with cur := g.cur ++ items, shared := false }

/-- addIncludeIfEntry from the Go source.  In the no-section branch the very
first append already overflows the exact capacity of content, so the whole
chain works on a fresh array and is a plain concatenation.  In the
section-exists branch the chain starts from content[:startIndex], which
shares the backing array of content; the simulator replays the in-place
writes, and the final append reads content[endIndex+1:] from that possibly
overwritten array. -/
def addIncludeIfEntry (hd : Str) (ident : Identity) (fs : FS) : FS :=
  let content := readGitConfig fs
  let se := findGitIDSection content
  let entries := newEntries hd ident
  if se.1 = -1 then
    writeGitConfig (content ++ [[]] ++ [startMarker] ++ entries ++ [endMarker]) fs
  else
    let existing := intSlice content (se.1 + 1) se.2
    let g0 : GoSlice := ⟨content, content.take se.1.toNat, true⟩
    let g1 := goAppend g0 [startMarker]
    let g2 := goAppend g1 existing
    let g3 := goAppend g2 entries
    let g4 := goAppend g3 [endMarker]
    let final :=
      if se.2 < (content.length : Int) then
        (goAppend g4 (g4.arr.drop (se.2 + 1).toNat)).cur
      else g4.cur
    writeGitConfig final fs

/-- Filter loop of removeIncludeIfEntry over the section body.  j is the
offset of the line inside the body, so the Go guard i > startIndex+1 is
j > 0.  When a line containing the identity path is met past the first body
line while the kept list is empty, the Go expression
newEntries[:len(newEntries)-1] panics on slice bounds; that stop is modelled
as none. -/
def remLoop (ip : Str) : List Str → Nat → List Str → Option (List Str)
  | [], _, acc => some acc
  | l :: ls, j, acc =>
      if containsSub l ip then
        if j > 0 then
          match acc with
          | [] => none
          | _ :: _ => remLoop ip ls (j + 1) acc.dropLast
        else remLoop ip ls (j + 1) acc
      else remLoop ip ls (j + 1) (acc ++ [l])

/-- removeIncludeIfEntry from the Go source.  Unlike addIncludeIfEntry, its
append chains never overwrite an array position that is read afterwards (the
writes stay at or below the end-marker index, and in the empty branch the
overlapping forward copy reads every source position before overwriting it),
so the result is the plain concatenation. -/
def removeIncludeIfEntry (name : Str) (fs : FS) : Option FS :=
  let content := readGitConfig fs
  let se := findGitIDSection content
  if se.1 = -1 then some fs
  else
    let identityPath := credTag ++ name
    match remLoop identityPath (intSlice content (se.1 + 1) se.2) 0 [] with
    | none => none
    | some entries =>
        if entries.isEmpty then
          some (writeGitConfig (content.take se.1.toNat ++ content.drop (se.2 + 1).toNat) fs)
        else
          some (writeGitConfig
            (content.take se.1.toNat ++ [startMarker] ++ entries ++ [endMarker] ++
              (if se.2 < (content.length : Int) then content.drop (se.2 + 1).toNat else [])) fs)

/-- createIdentityFile: write the credential file for the identity,
overwriting any previous one. -/
def createIdentityFile (ident : Identity) (fs : FS) : FS :=
  { fs with creds := updateAssoc fs.creds ident.Name ⟨ident.GitName, ident.Email⟩ }

/-- AddIncludeIf: credential file first, then the managed-section entries.
File-system write failures are not modelled, so the operation succeeds. -/
def AddIncludeIf (hd : Str) (ident : Identity) (fs : FS) : FS :=
  addIncludeIfEntry hd ident (createIdentityFile ident fs)

/-- RemoveIncludeIf: strip the managed-section entries, then delete the
credential file (a missing credential file is not an error).  none records
the slice-bounds panic reachable inside removeIncludeIfEntry. -/
def RemoveIncludeIf (name : Str) (fs : FS) : Option FS :=
  (removeIncludeIfEntry name fs).map fun fs1 =>
    { fs1 with creds := removeAssoc fs1.creds name }

/-- ConfigManager interface from internal/identity/manager.go, over an
abstract persistence state σ: AddIncludeIf and RemoveIncludeIf, each either
failing with an error or producing the next state. -/
structure CMIntf (σ : Type) where
  addIncludeIf : Identity → σ → Except Str σ
  removeIncludeIf : Str → σ → Except Str σ

/-- Identity registry from internal/identity/manager.go, over an abstract
persistence state σ.  configManager is the interface field, none when the
manager was built without one. -/
structure Manager (σ : Type) where
  identities : List (Str × Identity)
  configManager : Option (CMIntf σ)

/-- Error text of fmt.Errorf("identity ... already exists", name). -/
def errAlreadyExists (name : Str) : Str :=
  "identity ".data ++ [sq] ++ name ++ [sq] ++ " already exists".data

/-- Error text of fmt.Errorf("identity ... not found", name). -/
def errNotFound (name : Str) : Str :=
  "identity ".data ++ [sq] ++ name ++ [sq] ++ " not found".data

/-- Error wrapping of fmt.Errorf("failed to update git config: %w", err). -/
def wrapGitConfigErr (cause : Str) : Str :=
  "failed to update git config: ".data ++ cause

/-- Error wrapping of fmt.Errorf("failed to remove from git config: %w", err). -/
def wrapRemoveErr (cause : Str) : Str :=
  "failed to remove from git config: ".data ++ cause

/-- AddIdentity from the Go source: reject a known name before anything else,
persist through the config manager when one is present, and insert into the
in-memory map only after the persistence call succeeded.  The result carries
the error (none on success) together with the manager and persistence state
after the call. -/
def AddIdentity (m : Manager σ) (st : σ) (name gitName email : Str)
    (paths : List Str) : Option Str × Manager σ × σ :=
  match lookupAssoc m.identities name with
  | some _ => (some (errAlreadyExists name), m, st)
  | none =>
      let ident : Identity := ⟨name, gitName, email, paths⟩
      match m.configManager with
      | some cm =>
          match cm.addIncludeIf ident st with
          | .error e => (some (wrapGitConfigErr e), m, st)
          | .ok st1 =>
              (none, { m with identities := updateAssoc m.identities name ident }, st1)
      | none => (none, { m with identities := updateAssoc m.identities name ident }, st)

/-- RemoveIdentity from the Go source, with the same conventions as
AddIdentity. -/
def RemoveIdentity (m : Manager σ) (st : σ) (name : Str) :
    Option Str × Manager σ × σ :=
  match lookupAssoc m.identities name with
  | none => (some (errNotFound name), m, st)
  | some _ =>
      match m.configManager with
      | some cm =>
          match cm.removeIncludeIf name st with
          | .error e => (some (wrapRemoveErr e), m, st)
          | .ok st1 => (none, { m with identities := removeAssoc m.identities name }, st1)
      | none => (none, { m with identities := removeAssoc m.identities name }, st)

/-- Flattening of a list of header/path-line pairs into consecutive lines, the
shape in which the editor itself writes managed-section entries. -/
def pairsFlat : List (Str × Str) → List Str
  | [] => []
  | (h, pl) :: t => h :: pl :: pairsFlat t

/-- LoadIdentities from the Go source: replace the whole in-memory map, with
no persistence side effect. -/
def LoadIdentities (m : Manager σ) (ids : List (Str × Identity)) : Manager σ :=
  { m with identities := ids }

/-- ConfigManager wiring used by the CLI: the identity manager persists
through the real config editor over the file system.  AddIncludeIf always
succeeds in this model (file-system write failures are not modelled); the
slice-bounds panic reachable inside RemoveIncludeIf has no error return in
Go, so it is surfaced as an error to keep the interface total. -/
def realCM (hd : Str) : CMIntf FS :=
  ⟨fun i s => .ok (AddIncludeIf hd i s),
   fun nm s =>
     match RemoveIncludeIf nm s with
     | some f => .ok f
     | none => .error "slice bounds out of range".data⟩

/-- Normal form in which a path handed to persistNew is read back by
loadExisting: tilde expansion, trailing separator ensured on write, then the
one trailing separator stripped on load. -/
def normalizePath (hd p : Str) : Str :=
  (ensureSlash (expandPathGo hd p)).dropLast

/-! Lemmas about the Go string helpers. -/

theorem isPrefOf_length_le : ∀ {sub s : Str}, isPrefOf sub s = true → sub.length ≤ s.length
  | [], _, _ => Nat.zero_le _
  | _ :: _, [], h => by simp [isPrefOf] at h
  | a :: as, b :: bs, h => by
      simp only [isPrefOf, Bool.and_eq_true] at h
      simpa using Nat.succ_le_succ (isPrefOf_length_le h.2)

theorem firstIdxA_bound : ∀ {sub s : Str} {i j : Nat},
    firstIdxA sub s i = some j → i ≤ j ∧ j - i + sub.length ≤ s.length := by
  intro sub s
  induction s with
  | nil =>
    intro i j h
    simp only [firstIdxA] at h
    split at h
    · rename_i hp
      cases h
      constructor
      · exact Nat.le_refl _
      · simpa using isPrefOf_length_le hp
    · cases h
  | cons c t ih =>
    intro i j h
    simp only [firstIdxA] at h
    split at h
    · rename_i hp
      cases h
      refine ⟨Nat.le_refl _, ?_⟩
      simpa using isPrefOf_length_le hp
    · have := ih h
      refine ⟨Nat.le_trans (Nat.le_succ i) this.1, ?_⟩
      have h2 := this.2
      simp only [List.length_cons]
      omega

theorem firstIdx_bound {sub s : Str} {j : Nat} (h : firstIdx sub s = some j) :
    j + sub.length ≤ s.length := by
  have := firstIdxA_bound h
  omega

theorem firstIdx_nil {sep : Str} (hsep : sep.length ≠ 0) : firstIdx sep [] = none := by
  cases sep with
  | nil => simp at hsep
  | cons c t => simp [firstIdx, firstIdxA, isPrefOf]

theorem splitOnSubF_irrel {sep : Str} (hsep : sep.length ≠ 0) :
    ∀ (f1 : Nat) {s : Str} (f2 : Nat), s.length ≤ f1 → s.length ≤ f2 →
      splitOnSubF sep f1 s = splitOnSubF sep f2 s
  | 0, s, f2, h1, h2 => by
      have hs : s = [] := List.length_eq_zero.mp (Nat.le_zero.mp h1)
      subst hs
      cases f2 with
      | zero => rfl
      | succ k => simp [splitOnSubF, firstIdx_nil hsep]
  | f1 + 1, s, f2, h1, h2 => by
      cases f2 with
      | zero =>
          have hs : s = [] := List.length_eq_zero.mp (Nat.le_zero.mp h2)
          subst hs
          simp [splitOnSubF, firstIdx_nil hsep]
      | succ k =>
          simp only [splitOnSubF]
          cases hf : firstIdx sep s with
          | none => rfl
          | some i =>
              dsimp only
              have hb := firstIdx_bound hf
              have hone : 1 ≤ sep.length := Nat.one_le_iff_ne_zero.mpr hsep
              have hlen : (s.drop (i + sep.length)).length ≤ f1 := by
                simp only [List.length_drop]
                omega
              have hlen2 : (s.drop (i + sep.length)).length ≤ k := by
                simp only [List.length_drop]
                omega
              rw [splitOnSubF_irrel hsep f1 k hlen hlen2]

theorem isPrefOf_append_self : ∀ (l m : Str), isPrefOf l (l ++ m) = true
  | [], _ => rfl
  | a :: as, m => by simp [isPrefOf, isPrefOf_append_self as m]

theorem isPrefOf_self (l : Str) : isPrefOf l l = true := by
  have := isPrefOf_append_self l []
  simpa using this

theorem isPrefOf_short {sub s : Str} (h : s.length < sub.length) : isPrefOf sub s = false := by
  cases hp : isPrefOf sub s
  · rfl
  · exact absurd (isPrefOf_length_le hp) (Nat.not_le_of_lt h)

theorem isPrefOf_decomp : ∀ {sub s : Str}, isPrefOf sub s = true → ∃ r, s = sub ++ r
  | [], s, _ => ⟨s, rfl⟩
  | a :: as, [], h => by simp [isPrefOf] at h
  | a :: as, b :: bs, h => by
      simp only [isPrefOf, Bool.and_eq_true, decide_eq_true_eq] at h
      obtain ⟨r, hr⟩ := isPrefOf_decomp h.2
      exact ⟨r, by simp [h.1, hr]⟩

theorem firstIdxA_boundary {c : Char} (sub2 B : Str) :
    ∀ (A : Str), (∀ a ∈ A, a ≠ c) → ∀ i,
      firstIdxA (c :: sub2) (A ++ (c :: sub2) ++ B) i = some (i + A.length)
  | [], _, i => by
      have h1 : isPrefOf (c :: sub2) (c :: (sub2 ++ B)) = true := by
        simpa using isPrefOf_append_self (c :: sub2) B
      simp [firstIdxA, h1]
  | a :: A, hA, i => by
      have hne : a ≠ c := hA a (by simp)
      have h1 : isPrefOf (c :: sub2) (a :: (A ++ (c :: sub2) ++ B)) = false := by
        simp only [isPrefOf, Bool.and_eq_false_iff, decide_eq_false_iff_not]
        exact Or.inl fun h => hne h.symm
      have ih := firstIdxA_boundary sub2 B A
        (fun x hx => hA x (by simp [hx])) (i + 1)
      have hshape : (a :: A) ++ (c :: sub2) ++ B = a :: (A ++ (c :: sub2) ++ B) := by
        simp
      rw [hshape]
      simp only [firstIdxA, h1, Bool.false_eq_true, if_false]
      rw [ih]
      congr 1
      simp only [List.length_cons]
      omega

theorem firstIdx_boundary {c : Char} (sub2 A B : Str) (hA : ∀ a ∈ A, a ≠ c) :
    firstIdx (c :: sub2) (A ++ (c :: sub2) ++ B) = some A.length := by
  have := firstIdxA_boundary sub2 B A hA 0
  simpa [firstIdx] using this

theorem firstIdxA_isSome_mid (sub B : Str) :
    ∀ (A : Str) (i : Nat), (firstIdxA sub (A ++ sub ++ B) i).isSome = true
  | [], i => by
      cases sub with
      | nil => cases B <;> simp [firstIdxA, isPrefOf]
      | cons c t =>
          have h1 : isPrefOf (c :: t) (c :: (t ++ B)) = true := by
            simpa using isPrefOf_append_self (c :: t) B
          simp [firstIdxA, h1]
  | a :: A, i => by
      have hshape : (a :: A) ++ sub ++ B = a :: (A ++ sub ++ B) := by simp
      rw [hshape]
      simp only [firstIdxA]
      split
      · rfl
      · exact firstIdxA_isSome_mid sub B A (i + 1)

theorem containsSub_mid (A sub B : Str) : containsSub (A ++ sub ++ B) sub = true := by
  simpa [containsSub, firstIdx] using firstIdxA_isSome_mid sub B A 0

theorem firstIdxA_decomp : ∀ {s : Str} {sub : Str} {i j : Nat},
    firstIdxA sub s i = some j → ∃ A B, s = A ++ sub ++ B := by
  intro s
  induction s with
  | nil =>
    intro sub i j h
    simp only [firstIdxA] at h
    split at h
    · rename_i hp
      cases sub with
      | nil => exact ⟨[], [], rfl⟩
      | cons c t => simp [isPrefOf] at hp
    · cases h
  | cons c t ih =>
    intro sub i j h
    simp only [firstIdxA] at h
    split at h
    · rename_i hp
      obtain ⟨r, hr⟩ := isPrefOf_decomp hp
      exact ⟨[], r, by simp [hr]⟩
    · obtain ⟨A, B, hAB⟩ := ih h
      exact ⟨c :: A, B, by simp [hAB]⟩

theorem containsSub_decomp {s sub : Str} (h : containsSub s sub = true) :
    ∃ A B, s = A ++ sub ++ B := by
  simp only [containsSub, firstIdx, Option.isSome_iff_exists] at h
  obtain ⟨j, hj⟩ := h
  exact firstIdxA_decomp hj

theorem firstIdx_eq_none {s sub : Str} (h : containsSub s sub = false) :
    firstIdx sub s = none := by
  simp only [containsSub] at h
  cases hx : firstIdx sub s with
  | none => rfl
  | some v => rw [hx] at h; cases h

/-- No occurrence of a pattern in a three-part concatenation, when its first
character is absent from the left part, the middle does not contain it, and
no character of the right part occurs in it at all. -/
theorem notContains_concat {c : Char} {sub2 : Str} {C1 P C2 : Str}
    (h1 : ∀ a ∈ C1, a ≠ c) (h2 : containsSub P (c :: sub2) = false)
    (h3 : ∀ a ∈ C2, a ∉ c :: sub2) :
    containsSub (C1 ++ P ++ C2) (c :: sub2) = false := by
  by_contra hcon
  rw [Bool.not_eq_false] at hcon
  obtain ⟨A, B, hAB⟩ := containsSub_decomp hcon
  rcases Nat.lt_or_ge A.length C1.length with hlt | hge
  · -- the occurrence would start inside C1, whose characters differ from c
    have hdrop := congrArg (List.drop A.length) hAB
    simp only [List.drop_append_eq_append_drop, List.length_append, List.length_cons,
      List.drop_length, Nat.sub_self, List.drop_zero, List.nil_append,
      (by omega : A.length - C1.length = 0),
      (by omega : A.length - (C1.length + P.length) = 0),
      (by omega : A.length - (A.length + (sub2.length + 1)) = 0)] at hdrop
    have hne : C1.drop A.length ≠ [] := by
      intro hnil
      have := congrArg List.length hnil
      simp only [List.length_drop, List.length_nil] at this
      omega
    obtain ⟨d, D, hD⟩ := List.exists_cons_of_ne_nil hne
    have hdm : d ∈ C1.drop A.length := by simp [hD]
    have hdC1 : d ∈ C1 := List.mem_of_mem_drop hdm
    have : d = c := by
      rw [hD] at hdrop
      have := congrArg (fun l => List.head? l) hdrop
      simpa using this
    exact h1 d hdC1 this
  · -- the occurrence starts at or after the end of C1
    have htake := congrArg (List.take C1.length) hAB
    simp only [List.take_append_eq_append_take, List.length_append, List.length_cons,
      List.take_length, Nat.sub_self, List.take_zero, List.append_nil,
      (by omega : C1.length - (C1.length + P.length) = 0),
      (by omega : C1.length - A.length = 0),
      (by omega : C1.length - (A.length + (sub2.length + 1)) = 0)] at htake
    have hA2 : A = C1 ++ A.drop C1.length := by
      conv_lhs => rw [← List.take_append_drop C1.length A, ← htake]
    set A2 := A.drop C1.length with hA2def
    have hAB2 : C1 ++ (P ++ C2) = C1 ++ (A2 ++ (c :: (sub2 ++ B))) := by
      rw [hA2] at hAB
      simpa [List.append_assoc] using hAB
    have E2 : P ++ C2 = A2 ++ (c :: sub2) ++ B := by
      have := List.append_cancel_left hAB2
      simpa [List.append_assoc] using this
    rcases Nat.lt_or_ge A2.length P.length with hto | hge2
    · rcases le_or_lt (A2.length + (c :: sub2).length) P.length with hin | hcross
      · -- the occurrence would sit wholly inside P
        have hin2 : A2.length + (sub2.length + 1) ≤ P.length := by
          simpa using hin
        have htake2 := congrArg (List.take P.length) E2
        simp only [List.take_left, List.take_append_eq_append_take, List.length_append,
          List.length_cons, List.take_length, Nat.sub_self, List.take_zero, List.append_nil,
          (List.take_of_length_le (show A2.length ≤ P.length by omega) :
            A2.take P.length = A2),
          (List.take_of_length_le (show (c :: sub2).length ≤ P.length - A2.length by
            simp only [List.length_cons]; omega) :
            (c :: sub2).take (P.length - A2.length) = c :: sub2)] at htake2
        have : containsSub P (c :: sub2) = true := by
          rw [htake2]
          simpa [List.append_assoc] using
            containsSub_mid A2 (c :: sub2)
              (B.take (P.length - (A2.length + (sub2.length + 1))))
        rw [h2] at this
        cases this
      · -- the boundary between P and C2 falls inside the occurrence
        have E3 : P.drop A2.length ++ C2 = (c :: sub2) ++ B := by
          have := congrArg (List.drop A2.length) E2
          rw [List.drop_append_eq_append_drop,
            Nat.sub_eq_zero_of_le (Nat.le_of_lt hto), List.drop_zero,
            List.append_assoc, List.drop_left] at this
          exact this
        have hlen2 : (P.drop A2.length).length < (c :: sub2).length := by
          simp only [List.length_drop]
          omega
        have E4 : C2 = (c :: sub2).drop (P.length - A2.length) ++ B := by
          have := congrArg (List.drop (P.drop A2.length).length) E3
          rw [List.drop_left, List.drop_append_eq_append_drop,
            Nat.sub_eq_zero_of_le (Nat.le_of_lt hlen2), List.drop_zero] at this
          simpa [List.length_drop] using this
        have hne : (c :: sub2).drop (P.length - A2.length) ≠ [] := by
          intro hnil
          have hlen3 := congrArg List.length hnil
          simp only [List.length_drop, List.length_cons, List.length_nil] at hlen3
          have hc2 : P.length < A2.length + (sub2.length + 1) := by
            simpa using hcross
          omega
        obtain ⟨d, D, hD⟩ := List.exists_cons_of_ne_nil hne
        have hdm : d ∈ (c :: sub2).drop (P.length - A2.length) := by simp [hD]
        have hd1 : d ∈ c :: sub2 := List.mem_of_mem_drop hdm
        have hd2 : d ∈ C2 := by rw [E4, hD]; simp
        exact h3 d hd2 hd1
    · -- the occurrence would start inside C2
      have htake2 := congrArg (List.take P.length) E2
      simp only [List.take_left, List.take_append_eq_append_take, List.length_append,
        List.length_cons, List.take_length, Nat.sub_self, List.take_zero, List.append_nil,
        (by omega : P.length - A2.length = 0),
        (by omega : P.length - (A2.length + (sub2.length + 1)) = 0)] at htake2
      have hA3 : A2 = P ++ A2.drop P.length := by
        conv_lhs => rw [← List.take_append_drop P.length A2, ← htake2]
      have E2b : P ++ C2 = P ++ (A2.drop P.length ++ (c :: (sub2 ++ B))) := by
        rw [hA3] at E2
        simpa [List.append_assoc] using E2
      have E5 : C2 = A2.drop P.length ++ (c :: sub2) ++ B := by
        have := List.append_cancel_left E2b
        simpa [List.append_assoc] using this
      have hc2 : c ∈ C2 := by rw [E5]; simp
      exact h3 c hc2 (by simp)

theorem lastIdxA_short {sub : Str} :
    ∀ {t : Str}, t.length < sub.length → ∀ i best, lastIdxA sub t i best = best
  | [], _, _, _ => rfl
  | c :: t, h, i, best => by
      have h1 : isPrefOf sub (c :: t) = false := isPrefOf_short h
      have h2 : t.length < sub.length := by
        simp only [List.length_cons] at h
        omega
      simp [lastIdxA, h1, lastIdxA_short h2]

theorem lastIdxA_append_end {sub : Str} (hs : sub ≠ []) :
    ∀ (X : Str) (i : Nat) (best : Option Nat),
      lastIdxA sub (X ++ sub) i best = some (i + X.length)
  | [], i, best => by
      obtain ⟨c, t, hct⟩ := List.exists_cons_of_ne_nil hs
      subst hct
      have h1 : isPrefOf (c :: t) (c :: t) = true := isPrefOf_self _
      have h2 : t.length < (c :: t).length := by simp
      simp [lastIdxA, h1, lastIdxA_short h2]
  | a :: X, i, best => by
      have hshape : (a :: X) ++ sub = a :: (X ++ sub) := by simp
      rw [hshape]
      simp only [lastIdxA]
      rw [lastIdxA_append_end hs X (i + 1)]
      congr 1
      simp only [List.length_cons]
      omega

theorem lastIndexGo_append_end {sub : Str} (hs : sub ≠ []) (X : Str) :
    lastIndexGo (X ++ sub) sub = (X.length : Int) := by
  simp [lastIndexGo, lastIdxA_append_end hs X 0 none]

theorem splitOnSub_eq_of_none {sep s : Str} (hsep : sep.length ≠ 0)
    (h : firstIdx sep s = none) : splitOnSub sep s = [s] := by
  unfold splitOnSub
  rw [if_neg hsep]
  cases hs : s.length with
  | zero => rfl
  | succ k => simp [splitOnSubF, h]

theorem splitOnSub_eq_of_some {sep s : Str} (hsep : sep.length ≠ 0) {i : Nat}
    (h : firstIdx sep s = some i) :
    splitOnSub sep s = s.take i :: splitOnSub sep (s.drop (i + sep.length)) := by
  have hb := firstIdx_bound h
  have hone : 1 ≤ sep.length := Nat.one_le_iff_ne_zero.mpr hsep
  unfold splitOnSub
  rw [if_neg hsep, if_neg hsep]
  cases hs : s.length with
  | zero => omega
  | succ k =>
      simp only [splitOnSubF, h]
      congr 1
      apply splitOnSubF_irrel hsep
      · simp only [List.length_drop]
        omega
      · exact Nat.le_refl _

/-- Splitting a string of the form A ++ sep ++ B at the separator, when the
first character of sep never occurs in A and sep does not occur in B. -/
theorem splitOnSub_boundary {c : Char} {sub2 A B : Str}
    (hA : ∀ a ∈ A, a ≠ c) (hB : containsSub B (c :: sub2) = false) :
    splitOnSub (c :: sub2) (A ++ (c :: sub2) ++ B) = [A, B] := by
  have hsep : (c :: sub2).length ≠ 0 := by simp
  have h1 := firstIdx_boundary sub2 A B hA
  rw [splitOnSub_eq_of_some hsep h1]
  have htake : (A ++ (c :: sub2) ++ B).take A.length = A := by
    rw [List.append_assoc]
    exact List.take_left A _
  have hdrop : (A ++ (c :: sub2) ++ B).drop (A.length + (c :: sub2).length) = B := by
    have : A ++ (c :: sub2) ++ B = (A ++ (c :: sub2)) ++ B := by simp
    rw [this, ← List.length_append]
    exact List.drop_left _ _
  rw [htake, hdrop, splitOnSub_eq_of_none hsep (firstIdx_eq_none hB)]

/-! Lemmas about trimming. -/

theorem trimSpace_eq_self {s : Str} (h1 : s.dropWhile isSpaceChar = s)
    (h2 : s.reverse.dropWhile isSpaceChar = s.reverse) : trimSpace s = s := by
  simp [trimSpace, h1, h2]

theorem dropWhile_eq_self_append {p : Char → Bool} {l : Str} (m : Str)
    (h : l.dropWhile p = l) (hne : l ≠ []) : (l ++ m).dropWhile p = l ++ m := by
  rw [List.dropWhile_append, h]
  simp [List.isEmpty_iff, hne]

/-! Lemmas about line splitting and joining. -/

theorem splitLines_no_newline : ∀ {s : Str}, '\n' ∉ s → splitLines s = [s]
  | [], _ => rfl
  | c :: t, h => by
      have hc : ¬(c = '\n') := by
        intro hc
        exact h (by simp [hc])
      have ht : '\n' ∉ t := fun hm => h (by simp [hm])
      simp [splitLines, hc, splitLines_no_newline ht]

theorem splitLines_append_newline : ∀ {l : Str} (r : Str), '\n' ∉ l →
    splitLines (l ++ '\n' :: r) = l :: splitLines r
  | [], r, _ => by simp [splitLines]
  | c :: t, r, h => by
      have hc : ¬(c = '\n') := by
        intro hc
        exact h (by simp [hc])
      have ht : '\n' ∉ t := fun hm => h (by simp [hm])
      have ih := splitLines_append_newline (l := t) r ht
      simp [splitLines, hc, ih]

theorem splitLines_joinLines : ∀ {ls : List Str}, ls ≠ [] →
    (∀ l ∈ ls, '\n' ∉ l) → splitLines (joinLines ls) = ls
  | [], h, _ => absurd rfl h
  | [l], _, hn => by
      simp only [joinLines]
      exact splitLines_no_newline (hn l (by simp))
  | l :: l2 :: ls, _, hn => by
      have h1 : '\n' ∉ l := hn l (by simp)
      have ih := splitLines_joinLines (show (l2 :: ls : List Str) ≠ [] by simp)
        (fun x hx => hn x (List.mem_cons_of_mem l hx))
      simp only [joinLines]
      rw [splitLines_append_newline _ h1, ih]

theorem mem_splitLines_no_newline : ∀ {s : Str} {l : Str}, l ∈ splitLines s → '\n' ∉ l := by
  intro s
  induction s with
  | nil =>
    intro l hl
    simp only [splitLines, List.mem_singleton] at hl
    subst hl
    simp
  | cons c t ih =>
    intro l hl
    by_cases hc : c = '\n'
    · rw [splitLines, if_pos hc] at hl
      rcases List.mem_cons.mp hl with h | h
      · subst h
        simp
      · exact ih h
    · rw [splitLines, if_neg hc] at hl
      rcases hsp : splitLines t with _ | ⟨h0, r⟩
      · simp only [hsp] at hl
        simp only [List.mem_singleton] at hl
        subst hl
        intro hmem
        rcases List.mem_cons.mp hmem with h | h
        · exact hc h.symm
        · cases h
      · simp only [hsp] at hl
        rcases List.mem_cons.mp hl with h | h
        · subst h
          intro hmem
          rcases List.mem_cons.mp hmem with h | h
          · exact hc h.symm
          · exact ih (by rw [hsp]; exact List.mem_cons_self h0 r) h
        · exact ih (by rw [hsp]; exact List.mem_cons_of_mem h0 h)

/-! Lemmas about the section-boundary scan. -/

theorem startMarker_ne_endMarker : startMarker ≠ endMarker := by decide

theorem findAux_cons_start {l : Str} (h : trimSpace l = startMarker)
    (R : List Str) (i : Nat) (s : Int) :
    findAux (l :: R) i s = findAux R (i + 1) (i : Int) := by
  simp [findAux, h]

theorem findAux_cons_end {l : Str} (h : trimSpace l = endMarker)
    (R : List Str) (i : Nat) (s : Int) :
    findAux (l :: R) i s = (s, (i : Int)) := by
  have hne : endMarker ≠ startMarker := fun hh => startMarker_ne_endMarker hh.symm
  simp [findAux, h, hne]

theorem findAux_cons_skip {l : Str} (h1 : trimSpace l ≠ startMarker)
    (h2 : trimSpace l ≠ endMarker) (R : List Str) (i : Nat) (s : Int) :
    findAux (l :: R) i s = findAux R (i + 1) s := by
  simp [findAux, h1, h2]

theorem findAux_append_skip :
    ∀ {A : List Str}, (∀ l ∈ A, trimSpace l ≠ startMarker ∧ trimSpace l ≠ endMarker) →
      ∀ (R : List Str) (i : Nat) (s : Int), findAux (A ++ R) i s = findAux R (i + A.length) s
  | [], _, R, i, s => by simp
  | a :: A, h, R, i, s => by
      have ha := h a (by simp)
      have ih := findAux_append_skip (A := A)
        (fun x hx => h x (List.mem_cons_of_mem a hx)) R (i + 1) s
      rw [List.cons_append, findAux_cons_skip ha.1 ha.2, ih]
      congr 1
      simp only [List.length_cons]
      omega

theorem findAux_snd_neg :
    ∀ {A : List Str}, (∀ l ∈ A, trimSpace l ≠ endMarker) →
      ∀ (i : Nat) (s : Int), (findAux A i s).2 = -1
  | [], _, _, _ => rfl
  | a :: A, h, i, s => by
      have ha := h a (by simp)
      have ih := findAux_snd_neg (A := A) (fun x hx => h x (List.mem_cons_of_mem a hx))
      by_cases hs : trimSpace a = startMarker
      · rw [findAux_cons_start hs]
        exact ih (i + 1) _
      · rw [findAux_cons_skip hs ha]
        exact ih (i + 1) s

/-! Lemmas about association lists and slices. -/

theorem lookupAssoc_update_self (l : List (Str × α)) (k : Str) (v : α) :
    lookupAssoc (updateAssoc l k v) k = some v := by
  induction l with
  | nil => simp [updateAssoc, lookupAssoc]
  | cons p t ih =>
    by_cases h : p.1 = k
    · simp [updateAssoc, h, lookupAssoc]
    · simp [updateAssoc, h, lookupAssoc, ih]

theorem slice_exact (X Y Z : List Str) :
    ((X ++ Y ++ Z).take (X.length + Y.length)).drop X.length = Y := by
  have h1 : (X ++ Y ++ Z).take (X.length + Y.length) = X ++ Y := by
    rw [List.append_assoc, List.take_append_eq_append_take,
      List.take_of_length_le (by omega : X.length ≤ X.length + Y.length),
      List.take_append_eq_append_take]
    simp
  rw [h1, List.drop_left]

theorem intSlice_natCast (l : List Str) (a b : Nat) :
    intSlice l (a : Int) (b : Int) = (l.take b).drop a := by
  simp [intSlice]

/-! Claim theorems. -/

/-- C9: when the global config file does not exist, loadExisting returns an
empty mapping and no error, whatever credential files exist. -/
theorem c9_load_missing_file_empty_success (creds : List (Str × Cred)) :
    LoadExistingIdentities ⟨none, creds⟩ = ⟨[], none⟩ := rfl

/-- C5: for a fresh name, when the Config Editor persistence call fails, add
fails with an error wrapping the underlying cause and returns with the
in-memory map and the persistence state exactly as before the call; the
record is not inserted. -/
theorem c5_add_rolls_back_on_editor_failure {σ : Type} (m : Manager σ) (st : σ)
    (name gitName email : Str) (paths : List Str) (cm : CMIntf σ) (cause : Str)
    (hnew : lookupAssoc m.identities name = none)
    (hcm : m.configManager = some cm)
    (hfail : cm.addIncludeIf ⟨name, gitName, email, paths⟩ st = .error cause) :
    AddIdentity m st name gitName email paths =
      (some (wrapGitConfigErr cause), m, st) := by
  simp [AddIdentity, hnew, hcm, hfail]

/-- Editor that always fails, used to witness the rollback theorem. -/
def failingCM : CMIntf Nat :=
  ⟨fun _ _ => .error "disk full".data, fun _ _ => .error "disk full".data⟩

/-- Witness for the C5 theorem at a concrete manager and editor. -/
theorem c5_witness :
    AddIdentity ⟨[], some failingCM⟩ 0 "work".data "J".data "j@co".data ["/w".data] =
      (some (wrapGitConfigErr "disk full".data), ⟨[], some failingCM⟩, 0) :=
  c5_add_rolls_back_on_editor_failure ⟨[], some failingCM⟩ 0 "work".data "J".data
    "j@co".data ["/w".data] failingCM "disk full".data rfl rfl rfl

/-- C8: a second add with a name already in the map fails with the
already-exists error before any Config Editor call: the map and the
persistence state (hence the config file and the credential files) are
returned unchanged, for every possible editor. -/
theorem c8_duplicate_add_rejected {σ : Type} (m : Manager σ) (st : σ)
    (name gitName email : Str) (paths : List Str) (ident : Identity)
    (hex : lookupAssoc m.identities name = some ident) :
    AddIdentity m st name gitName email paths = (some (errAlreadyExists name), m, st) := by
  simp [AddIdentity, hex]

/-- Manager state as produced by a first successful add of "work". -/
def c8mgr : Manager FS :=
  ⟨[("work".data, ⟨"work".data, "J".data, "j@co".data, ["/w".data]⟩)],
   some ⟨fun i s => .ok (AddIncludeIf "/home/u".data i s),
         fun n s =>
           match RemoveIncludeIf n s with
           | some f => .ok f
           | none => .error "panic".data⟩⟩

/-- File-system state as produced by a first successful add of "work". -/
def c8fs : FS :=
  AddIncludeIf "/home/u".data ⟨"work".data, "J".data, "j@co".data, ["/w".data]⟩ ⟨none, []⟩

/-- Witness for the C8 theorem: the duplicate add is rejected against the real
config editor and leaves the post-first-add state untouched. -/
theorem c8_witness :
    AddIdentity c8mgr c8fs "work".data "Jane".data "x@y".data ["/other".data] =
      (some (errAlreadyExists "work".data), c8mgr, c8fs) :=
  c8_duplicate_add_rejected c8mgr c8fs "work".data "Jane".data "x@y".data
    ["/other".data] ⟨"work".data, "J".data, "j@co".data, ["/w".data]⟩ rfl

/-- C2 counterexample: a global config consisting of exactly the start-marker
line, with no end marker, loads as a SUCCESS: empty mapping and nil error.
The claimed hard failure (a malformed-section error) does not happen; indeed
LoadExistingIdentities returns a nil error on every path. -/
theorem c2_counterexample_unterminated_loads_ok :
    LoadExistingIdentities ⟨some (joinLines [startMarker]), []⟩ = ⟨[], none⟩ := by decide

/-- C2 amended: for every existing global config that contains a start-marker
line and no end-marker line, loadExisting succeeds with the empty mapping and
no error: the end index stays -1, so the parse loop is vacuous and end of
file is neither treated as a section end nor reported. -/
theorem c2_amended_unterminated_loads_empty (raw : Str) (creds : List (Str × Cred))
    (hstart : ∃ l ∈ splitLines raw, trimSpace l = startMarker)
    (hend : ∀ l ∈ splitLines raw, trimSpace l ≠ endMarker) :
    LoadExistingIdentities ⟨some raw, creds⟩ = ⟨[], none⟩ := by
  clear hstart
  have h2 : (findGitIDSection (splitLines raw)).2 = -1 := findAux_snd_neg hend 0 (-1)
  by_cases h1 : (findGitIDSection (splitLines raw)).1 = -1
  · simp [LoadExistingIdentities, readGitConfig, h1]
  · have hsl : intSlice (splitLines raw) ((findGitIDSection (splitLines raw)).1 + 1)
        (findGitIDSection (splitLines raw)).2 = [] := by
      rw [h2]
      simp [intSlice]
    simp [LoadExistingIdentities, readGitConfig, h1, hsl]

/-- Witness for the C2 amended theorem: a config with an ordinary line
followed by an unterminated start marker. -/
theorem c2_witness :
    LoadExistingIdentities ⟨some (joinLines ["[user]".data, startMarker]), []⟩ =
      ⟨[], none⟩ :=
  c2_amended_unterminated_loads_empty (joinLines ["[user]".data, startMarker]) []
    (by decide) (by decide)

/-- C10: when several start-marker lines precede the first end-marker line,
the shared boundary scan findGitIDSection returns the index of the last such
start-marker line paired with the index of the first end-marker line, leaving
the earlier start markers and the lines between them before the section. -/
theorem c10_section_last_start_first_end (A B C D : List Str) (s1 s2 e : Str)
    (hA : ∀ l ∈ A, trimSpace l ≠ startMarker ∧ trimSpace l ≠ endMarker)
    (hB : ∀ l ∈ B, trimSpace l ≠ startMarker ∧ trimSpace l ≠ endMarker)
    (hC : ∀ l ∈ C, trimSpace l ≠ startMarker ∧ trimSpace l ≠ endMarker)
    (hs1 : trimSpace s1 = startMarker) (hs2 : trimSpace s2 = startMarker)
    (he : trimSpace e = endMarker) :
    findGitIDSection (A ++ [s1] ++ B ++ [s2] ++ C ++ [e] ++ D) =
      (((A.length + B.length + 1 : Nat) : Int),
       ((A.length + B.length + C.length + 2 : Nat) : Int)) := by
  unfold findGitIDSection
  have hshape : A ++ [s1] ++ B ++ [s2] ++ C ++ [e] ++ D =
      A ++ (s1 :: (B ++ (s2 :: (C ++ (e :: D))))) := by simp
  rw [hshape, findAux_append_skip hA, findAux_cons_start hs1,
    findAux_append_skip hB, findAux_cons_start hs2, findAux_append_skip hC,
    findAux_cons_end he]
  simp only [Prod.mk.injEq]
  constructor <;> (norm_cast; omega)

/-- Witness for the C10 theorem: two start markers directly followed by the
end marker. -/
theorem c10_witness :
    findGitIDSection ([] ++ [startMarker] ++ [] ++ [startMarker] ++ [] ++
        [endMarker] ++ []) = (((1 : Nat) : Int), ((2 : Nat) : Int)) :=
  c10_section_last_start_first_end [] [] [] [] startMarker startMarker endMarker
    (by simp) (by simp) (by simp) (by decide) (by decide) (by decide)

/-- C3: removeExisting("work") on a config whose managed section holds only
the entries of the DISTINCT identity "workplace" deletes the workplace header
and path line (the path-line match is a substring test, and the matched
credential-file name of "work" is a substring of that of "workplace"), and
then removes the emptied section.  The workplace credential file survives,
but its header/path pair does not, contradicting the non-interference claim. -/
theorem c3_remove_strips_other_identity :
    RemoveIncludeIf "work".data
      ⟨some (joinLines [startMarker, headerLine "/home/u".data "/wp".data,
          pathLine "/home/u".data "workplace".data, endMarker]),
       [("workplace".data, ⟨"W".data, "w@x".data⟩)]⟩ =
      some ⟨some [], [("workplace".data, ⟨"W".data, "w@x".data⟩)]⟩ := by decide

/-- C4: persistNew on a config that already has a managed section followed by
one more line: the Go append chain shares the backing array of the split
content, the new entries overwrite the end marker and the line "[core]"
behind it in place, and the final copy of the old tail reads the overwritten
cell.  The line "[core]", strictly outside the section, is absent from the
rewritten file, which instead ends in a duplicated path line. -/
theorem c4_outside_tail_lost :
    readGitConfig (AddIncludeIf "/home/u".data
        ⟨"work".data, "J".data, "j@co".data, ["/w".data]⟩
        ⟨some (joinLines [startMarker, endMarker, "[core]".data]), []⟩) =
      [startMarker, headerLine "/home/u".data "/w".data,
        pathLine "/home/u".data "work".data, endMarker,
        pathLine "/home/u".data "work".data] ∧
    "[core]".data ∉ readGitConfig (AddIncludeIf "/home/u".data
        ⟨"work".data, "J".data, "j@co".data, ["/w".data]⟩
        ⟨some (joinLines [startMarker, endMarker, "[core]".data]), []⟩) := by decide

theorem mem_pairsFlat {pairs : List (Str × Str)} {l : Str} :
    l ∈ pairsFlat pairs → ∃ q ∈ pairs, l = q.1 ∨ l = q.2 := by
  induction pairs with
  | nil => intro h; cases h
  | cons q t ih =>
    intro h
    rcases q with ⟨qh, qp⟩
    rcases List.mem_cons.mp h with h1 | h2
    · exact ⟨(qh, qp), by simp, Or.inl h1⟩
    · rcases List.mem_cons.mp h2 with h3 | h4
      · exact ⟨(qh, qp), by simp, Or.inr h3⟩
      · obtain ⟨q2, hq2, hl⟩ := ih h4
        exact ⟨q2, List.mem_cons_of_mem _ hq2, hl⟩

theorem remLoop_pairs_empty {ip : Str} :
    ∀ (pairs : List (Str × Str)),
      (∀ q ∈ pairs, containsSub q.1 ip = false ∧ containsSub q.2 ip = true) →
      ∀ (j : Nat), remLoop ip (pairsFlat pairs) j [] = some []
  | [], _, _ => rfl
  | (h, pl) :: t, hp, j => by
      have h1 := (hp (h, pl) (by simp)).1
      have h2 := (hp (h, pl) (by simp)).2
      have ih := remLoop_pairs_empty t
        (fun q hq => hp q (List.mem_cons_of_mem _ hq)) (j + 2)
      simp only [pairsFlat, remLoop, h1, h2]
      simp only [Bool.false_eq_true, if_false, if_true, Nat.add_eq]
      rw [if_pos (by omega : j + 1 > 0)]
      simpa [List.dropLast] using ih

/-- C6 counterexample: a managed section holding exactly one header/path pair
of the single identity "work", whose header points at the directory
/home/u/.gitconfig-gitid-work-projects/ (a claim-covered input, writable by
persistNew itself).  The header line contains the matched substring
".gitconfig-gitid-work", so the filter skips it at the first body line
without keeping it; at the following path line the kept list is empty and Go
evaluates newEntries[:len(newEntries)-1] on an empty slice — a slice-bounds
panic (modelled as none) — instead of producing the claimed marker-free
file. -/
theorem c6_counterexample_header_embeds_tag :
    RemoveIncludeIf "work".data
      ⟨some (joinLines [startMarker,
          headerLine "/home/u".data "/home/u/.gitconfig-gitid-work-projects".data,
          pathLine "/home/u".data "work".data, endMarker]),
       [("work".data, ⟨"J".data, "j@co".data⟩)]⟩ = none := by decide

/-- C6 amended: a managed section holding only header/path pairs of a single
identity, none of whose HEADER lines contains the credential tag followed by
that identity's name (and none of whose lines trims to a marker), collapses
fully under removeExisting of that identity: the rewritten file is exactly
the outside content with both markers gone, and the credential file of that
identity is deleted.  Without the header restriction the call panics on
slice bounds rather than collapsing the section. -/
theorem c6_remove_sole_identity_removes_markers
    (name : Str) (P S : List Str) (pairs : List (Str × Str)) (fs : FS)
    (hread : readGitConfig fs =
      P ++ [startMarker] ++ pairsFlat pairs ++ [endMarker] ++ S)
    (hP : ∀ l ∈ P, trimSpace l ≠ startMarker ∧ trimSpace l ≠ endMarker)
    (hpairs : ∀ q ∈ pairs,
      (trimSpace q.1 ≠ startMarker ∧ trimSpace q.1 ≠ endMarker ∧
        containsSub q.1 (credTag ++ name) = false) ∧
      (trimSpace q.2 ≠ startMarker ∧ trimSpace q.2 ≠ endMarker ∧
        containsSub q.2 (credTag ++ name) = true)) :
    RemoveIncludeIf name fs =
      some ⟨some (joinLines (P ++ S)), removeAssoc fs.creds name⟩ := by
  set body := pairsFlat pairs with hbodydef
  have hbody : ∀ l ∈ body, trimSpace l ≠ startMarker ∧ trimSpace l ≠ endMarker := by
    intro l hl
    obtain ⟨q, hq, hl12⟩ := mem_pairsFlat hl
    rcases hl12 with h | h
    · exact ⟨h ▸ (hpairs q hq).1.1, h ▸ (hpairs q hq).1.2.1⟩
    · exact ⟨h ▸ (hpairs q hq).2.1, h ▸ (hpairs q hq).2.2.1⟩
  have hshape : P ++ [startMarker] ++ body ++ [endMarker] ++ S =
      P ++ (startMarker :: (body ++ (endMarker :: S))) := by simp
  have hfind : findGitIDSection (readGitConfig fs) =
      ((P.length : Int), ((P.length + 1 + body.length : Nat) : Int)) := by
    rw [hread, hshape]
    unfold findGitIDSection
    rw [findAux_append_skip hP, findAux_cons_start (by decide),
      findAux_append_skip hbody, findAux_cons_end (by decide)]
    simp only [Prod.mk.injEq]
    constructor <;> (norm_cast; omega)
  have hslice : intSlice (readGitConfig fs) ((P.length : Int) + 1)
      ((P.length + 1 + body.length : Nat) : Int) = body := by
    have hcast : ((P.length : Int) + 1) = ((P.length + 1 : Nat) : Int) := by push_cast; ring
    rw [hcast, intSlice_natCast, hread]
    have hgroup : P ++ [startMarker] ++ body ++ [endMarker] ++ S =
        (P ++ [startMarker]) ++ body ++ ([endMarker] ++ S) := by simp
    rw [hgroup]
    have hlen : P.length + 1 + body.length =
        (P ++ [startMarker]).length + body.length := by simp
    rw [hlen]
    have := slice_exact (P ++ [startMarker]) body ([endMarker] ++ S)
    simpa using this
  have hloop : remLoop (credTag ++ name) body 0 [] = some [] := by
    rw [hbodydef]
    exact remLoop_pairs_empty pairs
      (fun q hq => ⟨(hpairs q hq).1.2.2, (hpairs q hq).2.2.2⟩) 0
  have htake : (readGitConfig fs).take ((P.length : Int)).toNat = P := by
    rw [hread]
    simp only [Int.toNat_natCast]
    rw [List.append_assoc, List.append_assoc, List.append_assoc]
    exact List.take_left P _
  have hdrop : (readGitConfig fs).drop
      ((((P.length + 1 + body.length : Nat) : Int) + 1)).toNat = S := by
    have hcast : (((P.length + 1 + body.length : Nat) : Int) + 1) =
        ((P.length + 1 + body.length + 1 : Nat) : Int) := by push_cast; ring
    rw [hcast, Int.toNat_natCast, hread]
    have hgroup : P ++ [startMarker] ++ body ++ [endMarker] ++ S =
        (P ++ [startMarker] ++ body ++ [endMarker]) ++ S := by simp
    rw [hgroup]
    have hlen : P.length + 1 + body.length + 1 =
        (P ++ [startMarker] ++ body ++ [endMarker]).length := by
      simp only [List.length_append, List.length_cons, List.length_nil]
    rw [hlen]
    exact List.drop_left _ _
  have hne : ¬(((P.length : Nat) : Int) = -1) := by omega
  unfold RemoveIncludeIf removeIncludeIfEntry
  dsimp only
  rw [hfind]
  dsimp only
  rw [if_neg hne, hslice, hloop]
  dsimp only
  rw [htake, hdrop]
  simp [writeGitConfig]

/-- Witness for the C6 theorem: one pair for "work" between ordinary lines. -/
theorem c6_witness :
    RemoveIncludeIf "work".data
      ⟨some (joinLines (["[user]".data] ++ [startMarker] ++
          pairsFlat [(headerLine "/home/u".data "/w".data,
            pathLine "/home/u".data "work".data)] ++ [endMarker] ++ ["# tail".data])),
       [("work".data, ⟨"J".data, "j@co".data⟩)]⟩ =
      some ⟨some (joinLines (["[user]".data] ++ ["# tail".data])),
        removeAssoc [("work".data, ⟨"J".data, "j@co".data⟩)] "work".data⟩ :=
  c6_remove_sole_identity_removes_markers "work".data ["[user]".data] ["# tail".data]
    [(headerLine "/home/u".data "/w".data, pathLine "/home/u".data "work".data)]
    ⟨some (joinLines (["[user]".data] ++ [startMarker] ++
        pairsFlat [(headerLine "/home/u".data "/w".data,
          pathLine "/home/u".data "work".data)] ++ [endMarker] ++ ["# tail".data])),
     [("work".data, ⟨"J".data, "j@co".data⟩)]⟩
    (by decide) (by decide) (by decide)

/-! Bridges exposing the head or tail structure of the fixed patterns, and
facts about trimming the lines the editor writes. -/

theorem includeIfPre_cons : includeIfPre = '[' :: "includeIf \"gitdir:".data := rfl

theorem includeIfPre_split : includeIfPre = "[includeIf \"".data ++ gitdirStr := rfl

theorem gitdirStr_cons : gitdirStr = 'g' :: "itdir:".data := rfl

theorem credTag_cons : credTag = '.' :: "gitconfig-gitid-".data := rfl

theorem credTag_snoc : credTag = ".gitconfig-gitid".data ++ ['-'] := rfl

theorem quoteBracket_eq : quoteBracket = ['"', ']'] := rfl

theorem pathEq_cons : pathEq = 'p' :: "ath = ".data := rfl

theorem leadSpaces_cons :
    "    path = ".data = ' ' :: ' ' :: ' ' :: ' ' :: pathEq := rfl

theorem dropWhile_cons_nonspace {c : Char} (h : isSpaceChar c = false) (t : Str) :
    (c :: t).dropWhile isSpaceChar = c :: t := by
  simp [List.dropWhile_cons, h]

theorem dropWhile_cons_space {c : Char} (h : isSpaceChar c = true) (t : Str) :
    (c :: t).dropWhile isSpaceChar = t.dropWhile isSpaceChar := by
  simp [List.dropWhile_cons, h]

theorem trimSpace_fix {s : Str} (h : trimSpace s = s) :
    s.dropWhile isSpaceChar = s ∧ s.reverse.dropWhile isSpaceChar = s.reverse := by
  have hsuf : s.dropWhile isSpaceChar <:+ s := List.dropWhile_suffix _
  have hsuf2 : (s.dropWhile isSpaceChar).reverse.dropWhile isSpaceChar <:+
      (s.dropWhile isSpaceChar).reverse := List.dropWhile_suffix _
  have hlen : ((s.dropWhile isSpaceChar).reverse.dropWhile isSpaceChar).length = s.length := by
    have := congrArg List.length h
    simpa [trimSpace] using this
  have hlen1 : (s.dropWhile isSpaceChar).length ≤ s.length := hsuf.length_le
  have hlen2 : ((s.dropWhile isSpaceChar).reverse.dropWhile isSpaceChar).length ≤
      (s.dropWhile isSpaceChar).length := by
    simpa using hsuf2.length_le
  have heq1 : s.dropWhile isSpaceChar = s :=
    List.IsSuffix.eq_of_length hsuf (by omega)
  refine ⟨heq1, ?_⟩
  have h2 : (s.reverse.dropWhile isSpaceChar).reverse = s := by
    have := h
    rw [trimSpace, heq1] at this
    exact this
  have := congrArg List.reverse h2
  simpa using this

theorem trimSpace_headerLine (P : Str) :
    trimSpace (includeIfPre ++ P ++ quoteBracket) = includeIfPre ++ P ++ quoteBracket := by
  apply trimSpace_eq_self
  · rw [show includeIfPre ++ P ++ quoteBracket =
        '[' :: ("includeIf \"gitdir:".data ++ (P ++ quoteBracket)) from by
      rw [includeIfPre_cons]; simp]
    exact dropWhile_cons_nonspace (by decide) _
  · rw [show (includeIfPre ++ P ++ quoteBracket).reverse =
        ']' :: ('"' :: (P.reverse ++ includeIfPre.reverse)) from by
      rw [quoteBracket_eq]; simp]
    exact dropWhile_cons_nonspace (by decide) _

theorem trimSpace_pathLine (hd n : Str) (hn : trimSpace n = n) :
    trimSpace (pathLine hd n) = pathEq ++ filepathJoin hd (credTag ++ n) := by
  have hA : pathEq ++ filepathJoin hd (credTag ++ n) =
      (pathEq ++ hd ++ "/".data ++ credTag) ++ n := by
    simp [filepathJoin]
  have hleft : (pathLine hd n).dropWhile isSpaceChar =
      pathEq ++ filepathJoin hd (credTag ++ n) := by
    rw [show pathLine hd n =
        ' ' :: (' ' :: (' ' :: (' ' :: (pathEq ++ filepathJoin hd (credTag ++ n))))) from by
      rw [pathLine, leadSpaces_cons]; simp]
    rw [dropWhile_cons_space (by decide), dropWhile_cons_space (by decide),
      dropWhile_cons_space (by decide), dropWhile_cons_space (by decide)]
    rw [show pathEq ++ filepathJoin hd (credTag ++ n) =
        'p' :: ("ath = ".data ++ filepathJoin hd (credTag ++ n)) from by
      rw [pathEq_cons]; simp]
    exact dropWhile_cons_nonspace (by decide) _
  have hright : (pathEq ++ filepathJoin hd (credTag ++ n)).reverse.dropWhile isSpaceChar =
      (pathEq ++ filepathJoin hd (credTag ++ n)).reverse := by
    rw [hA]
    rcases List.eq_nil_or_concat n with hnil | ⟨n0, c0, hcc⟩
    · subst hnil
      rw [show ((pathEq ++ hd ++ "/".data ++ credTag) ++ ([] : Str)).reverse =
          '-' :: (".gitconfig-gitid".data.reverse ++
            ("/".data.reverse ++ (hd.reverse ++ pathEq.reverse))) from by
        rw [credTag_snoc]; simp]
      exact dropWhile_cons_nonspace (by decide) _
    · have hnrev : n.reverse.dropWhile isSpaceChar = n.reverse := (trimSpace_fix hn).2
      have hnrevne : n.reverse ≠ [] := by
        subst hcc
        simp
      rw [show ((pathEq ++ hd ++ "/".data ++ credTag) ++ n).reverse =
          n.reverse ++ (pathEq ++ hd ++ "/".data ++ credTag).reverse from by simp]
      exact dropWhile_eq_self_append _ hnrev hnrevne
  unfold trimSpace
  rw [hleft, hright, List.reverse_reverse]

theorem hasSuffGo_ensureSlash (q : Str) : hasSuffGo (ensureSlash q) "/".data = true := by
  unfold ensureSlash
  split
  · assumption
  · simp [hasSuffGo, isPrefOf]

theorem ensureSlash_ne_nil (q : Str) : ensureSlash q ≠ [] := by
  unfold ensureSlash
  split
  · rename_i h
    intro hq
    subst hq
    simp [hasSuffGo, isPrefOf] at h
  · simp

/-- Action of the load parser on a header line wrapping a path P that ends in
a separator and does not contain the credential tag: P minus its trailing
separator is appended to the pending paths. -/
theorem parseGitIDLine_header (fs : FS) (st : LoadSt) (P : Str)
    (hslash : hasSuffGo P "/".data = true)
    (hPinf : containsSub P credTag = false) :
    parseGitIDLine fs st (includeIfPre ++ P ++ quoteBracket) =
      { st with currentPaths := st.currentPaths ++ [P.dropLast] } := by
  have htrim := trimSpace_headerLine P
  have hpre : isPrefOf includeIfPre (includeIfPre ++ P ++ quoteBracket) = true := by
    rw [List.append_assoc]
    exact isPrefOf_append_self _ _
  have hPne : P ≠ [] := by
    intro h
    subst h
    simp [hasSuffGo, isPrefOf] at hslash
  have hidx : firstIdx gitdirStr (includeIfPre ++ P ++ quoteBracket) = some 12 := by
    have hshape : includeIfPre ++ P ++ quoteBracket =
        "[includeIf \"".data ++ gitdirStr ++ (P ++ quoteBracket) := by
      rw [includeIfPre_split]
      simp
    rw [hshape, gitdirStr_cons]
    have := firstIdx_boundary (c := 'g') "itdir:".data
      "[includeIf \"".data (P ++ quoteBracket) (by decide)
    simpa using this
  have hlast : lastIndexGo (includeIfPre ++ P ++ quoteBracket) quoteBracket =
      (((includeIfPre ++ P).length : Nat) : Int) :=
    lastIndexGo_append_end (by decide) _
  have hlen : (includeIfPre ++ P).length = 19 + P.length := by
    rw [List.length_append, (by decide : includeIfPre.length = 19)]
  have hlt : (((12 : Nat) : Int) + 7) < ((19 + P.length : Nat) : Int) := by
    have : 0 < P.length := List.length_pos.mpr hPne
    omega
  have hslice : strSliceI (includeIfPre ++ P ++ quoteBracket) (((12 : Nat) : Int) + 7)
      (((19 + P.length : Nat) : Int)) = P := by
    unfold strSliceI
    have h1 : ((((12 : Nat) : Int) + 7)).toNat = 19 := by omega
    have h2 : ((((19 + P.length : Nat) : Int))).toNat = 19 + P.length := by omega
    rw [h1, h2]
    have htk : (includeIfPre ++ P ++ quoteBracket).take (19 + P.length) =
        includeIfPre ++ P := by
      have : 19 + P.length = (includeIfPre ++ P).length := by rw [hlen]
      rw [this]
      exact List.take_left _ _
    rw [htk]
    have : (19 : Nat) = includeIfPre.length := by decide
    rw [this]
    exact List.drop_left _ _
  have hnotag : containsSub (includeIfPre ++ P ++ quoteBracket) credTag = false := by
    rw [credTag_cons]
    refine notContains_concat ?_ ?_ ?_
    · decide
    · rw [← credTag_cons]
      exact hPinf
    · decide
  unfold parseGitIDLine
  rw [htrim]
  simp only [hpre, if_true, hnotag, Bool.and_false, Bool.false_eq_true, if_false]
  simp only [indexGo, hidx, hlast, hlen]
  rw [if_pos hlt, hslice]
  simp only [hslash, if_true]

/-- Action of the load parser on a path line for identity n, written against
home directory hd: assuming no dot occurs in hd, n carries no leading or
trailing whitespace, and n does not contain the credential tag, the embedded
name is recovered exactly; a readable credential file emits the record with
the pending paths, an unreadable one emits nothing, and the pending paths
reset either way. -/
theorem parseGitIDLine_pathLine (fs : FS) (st : LoadSt) (hd n : Str)
    (hhdDot : ∀ a ∈ hd, a ≠ '.')
    (hnInf : containsSub n credTag = false)
    (hnTrim : trimSpace n = n) :
    parseGitIDLine fs st (pathLine hd n) =
      match loadIdentityFile fs n with
      | some ident =>
          ⟨updateAssoc st.identities n { ident with Paths := st.currentPaths }, []⟩
      | none => ⟨st.identities, []⟩ := by
  have htrim := trimSpace_pathLine hd n hnTrim
  have hA : pathEq ++ filepathJoin hd (credTag ++ n) =
      (pathEq ++ hd ++ "/".data) ++ credTag ++ n := by
    simp [filepathJoin]
  have hnopre : isPrefOf includeIfPre (pathEq ++ filepathJoin hd (credTag ++ n)) = false := by
    rw [show pathEq ++ filepathJoin hd (credTag ++ n) =
        'p' :: ("ath = ".data ++ filepathJoin hd (credTag ++ n)) from by
      rw [pathEq_cons]; simp]
    rw [includeIfPre_cons]
    simp [isPrefOf]
  have hhasPath : containsSub (pathEq ++ filepathJoin hd (credTag ++ n)) pathEq = true := by
    have := containsSub_mid [] pathEq (filepathJoin hd (credTag ++ n))
    simpa using this
  have hhasTag : containsSub (pathEq ++ filepathJoin hd (credTag ++ n)) credTag = true := by
    rw [hA]
    exact containsSub_mid _ _ _
  have hdots : ∀ a ∈ pathEq ++ hd ++ "/".data, a ≠ '.' := by
    intro a ha
    rcases List.mem_append.mp ha with h1 | h2
    · rcases List.mem_append.mp h1 with h3 | h4
      · exact (by decide : ∀ x ∈ pathEq, x ≠ '.') a h3
      · exact hhdDot a h4
    · exact (by decide : ∀ x ∈ "/".data, x ≠ '.') a h2
  have hsplit : splitOnSub credTag (pathEq ++ filepathJoin hd (credTag ++ n)) =
      [pathEq ++ hd ++ "/".data, n] := by
    rw [hA, credTag_cons]
    apply splitOnSub_boundary hdots
    rw [← credTag_cons]
    exact hnInf
  unfold parseGitIDLine
  rw [htrim]
  simp only [hnopre, Bool.false_eq_true, if_false, hhasPath, hhasTag, Bool.and_self,
    if_true, hsplit]
  simp only [List.length_cons, List.length_nil, List.getD, List.getElem?_cons_succ,
    List.getElem?_cons_zero, Option.getD_some, hnTrim]
  have hgt : 1 < 1 + 1 + 0 := by omega
  simp only [if_pos hgt]
  rcases hload : loadIdentityFile fs n with _ | ident <;> simp [hnTrim, hload]

/-! Facts about the lines the editor writes: no embedded newline when the
home directory and the path are newline-free, and the trimmed line never
equals a marker. -/

theorem startMarker_cons : startMarker = '#' :: " GitID Managed Section - Do not edit manually".data := rfl

theorem endMarker_cons : endMarker = '#' :: " End GitID Managed Section".data := rfl

theorem no_newline_expandPathGo {hd p : Str} (h1 : '\n' ∉ hd) (h2 : '\n' ∉ p) :
    '\n' ∉ expandPathGo hd p := by
  unfold expandPathGo filepathJoin
  split
  · intro hmem
    rcases List.mem_append.mp hmem with ha | hb
    · rcases List.mem_append.mp ha with hc | hdm
      · exact h1 hc
      · revert hdm
        decide
    · exact h2 (List.drop_subset 2 p hb)
  · exact h2

theorem no_newline_ensureSlash {q : Str} (h : '\n' ∉ q) : '\n' ∉ ensureSlash q := by
  unfold ensureSlash
  split
  · exact h
  · intro hmem
    rcases List.mem_append.mp hmem with ha | hb
    · exact h ha
    · revert hb
      decide

theorem no_newline_headerLine {hd p : Str} (h1 : '\n' ∉ hd) (h2 : '\n' ∉ p) :
    '\n' ∉ headerLine hd p := by
  unfold headerLine
  intro hmem
  rcases List.mem_append.mp hmem with ha | hb
  · rcases List.mem_append.mp ha with hc | hdm
    · revert hc
      decide
    · exact no_newline_ensureSlash (no_newline_expandPathGo h1 h2) hdm
  · revert hb
    decide

theorem no_newline_pathLine {hd n : Str} (h1 : '\n' ∉ hd) (h2 : '\n' ∉ n) :
    '\n' ∉ pathLine hd n := by
  unfold pathLine filepathJoin
  intro hmem
  rcases List.mem_append.mp hmem with ha | hb
  · revert ha
    decide
  · rcases List.mem_append.mp hb with hc | hdm
    · rcases List.mem_append.mp hc with he | hf
      · exact h1 he
      · revert hf
        decide
    · rcases List.mem_append.mp hdm with hg | hh
      · revert hg
        decide
      · exact h2 hh

theorem headerLine_ne_markers (hd p : Str) :
    trimSpace (headerLine hd p) ≠ startMarker ∧ trimSpace (headerLine hd p) ≠ endMarker := by
  have ht : trimSpace (headerLine hd p) = headerLine hd p := trimSpace_headerLine _
  rw [ht]
  unfold headerLine
  rw [includeIfPre_cons, startMarker_cons, endMarker_cons]
  constructor <;> simp

theorem pathLine_ne_markers (hd n : Str) (hn : trimSpace n = n) :
    trimSpace (pathLine hd n) ≠ startMarker ∧ trimSpace (pathLine hd n) ≠ endMarker := by
  have ht := trimSpace_pathLine hd n hn
  rw [ht, pathEq_cons, startMarker_cons, endMarker_cons]
  constructor <;> simp

theorem nil_ne_markers : trimSpace ([] : Str) ≠ startMarker ∧ trimSpace ([] : Str) ≠ endMarker := by
  constructor <;> decide

theorem startMarker_is_marker : trimSpace startMarker = startMarker := by decide

theorem endMarker_is_marker : trimSpace endMarker = endMarker := by decide

theorem readGitConfig_no_newline (fs : FS) : ∀ l ∈ readGitConfig fs, '\n' ∉ l := by
  unfold readGitConfig
  cases fs.gitconfig with
  | none => simp
  | some raw =>
      intro l hl
      exact mem_splitLines_no_newline hl

/-- Header-line form of parseGitIDLine_header: the normalized path is
appended to the pending paths. -/
theorem parseGitIDLine_headerLine (fs : FS) (st : LoadSt) (hd p : Str)
    (hPinf : containsSub (ensureSlash (expandPathGo hd p)) credTag = false) :
    parseGitIDLine fs st (headerLine hd p) =
      { st with currentPaths := st.currentPaths ++ [normalizePath hd p] } := by
  unfold headerLine normalizePath
  exact parseGitIDLine_header fs st _ (hasSuffGo_ensureSlash _) hPinf

/-- Path-line step when the credential file is readable: the record is
emitted with the pending paths and the accumulator resets. -/
theorem parseGitIDLine_pathLine_found (fs : FS) (st : LoadSt) (hd n : Str) (c : Cred)
    (hhdDot : ∀ a ∈ hd, a ≠ '.')
    (hnInf : containsSub n credTag = false)
    (hnTrim : trimSpace n = n)
    (hcred : lookupAssoc fs.creds n = some c) :
    parseGitIDLine fs st (pathLine hd n) =
      ⟨updateAssoc st.identities n ⟨n, c.gitName, c.email, st.currentPaths⟩, []⟩ := by
  rw [parseGitIDLine_pathLine fs st hd n hhdDot hnInf hnTrim]
  simp [loadIdentityFile, hcred]

/-- Path-line step when the credential file is unreadable: nothing is
emitted, no error is recorded, and the accumulator still resets. -/
theorem parseGitIDLine_pathLine_missing (fs : FS) (st : LoadSt) (hd n : Str)
    (hhdDot : ∀ a ∈ hd, a ≠ '.')
    (hnInf : containsSub n credTag = false)
    (hnTrim : trimSpace n = n)
    (hcred : lookupAssoc fs.creds n = none) :
    parseGitIDLine fs st (pathLine hd n) = ⟨st.identities, []⟩ := by
  rw [parseGitIDLine_pathLine fs st hd n hhdDot hnInf hnTrim]
  simp [loadIdentityFile, hcred]

/-- C7 counterexample: the managed section holds a header for /a, a path line
for "ghost" (whose credential file is unreadable), a header for /b and a path
line for "work" (readable).  No record had been emitted before the work path
line, so the claimed paths-since-previous-emission are /a and /b; the code
instead emits work with only /b, because the ghost path line already reset
the accumulator.  The ghost record is dropped with no error. -/
theorem c7_counterexample_reset_on_unreadable :
    LoadExistingIdentities ⟨some (joinLines [startMarker,
        headerLine "/home/u".data "/a".data, pathLine "/home/u".data "ghost".data,
        headerLine "/home/u".data "/b".data, pathLine "/home/u".data "work".data,
        endMarker]),
      [("work".data, ⟨"J".data, "j@co".data⟩)]⟩ =
      ⟨[("work".data, ⟨"work".data, "J".data, "j@co".data, ["/b".data]⟩)], none⟩ := by
  decide

/-- C7 amended: scanning the section top to bottom, a header line appends its
prefix (trailing separator stripped) to the pending paths; a path line whose
credential file is readable emits a record carrying exactly the paths
accumulated since the previous recognized path line, and a path line whose
credential file is unreadable emits nothing and surfaces no error; in BOTH
cases the accumulator resets.  Exhibited on a section with an unreadable
entry (n1) between two headers followed by a readable entry (n2): the n2
record carries only the path of its own header. -/
theorem c7_amended_reset_on_every_path_line
    (hd n1 n2 p1 p2 : Str) (creds : List (Str × Cred)) (c2 : Cred)
    (hhdNl : '\n' ∉ hd) (hhdDot : ∀ a ∈ hd, a ≠ '.')
    (hp1Nl : '\n' ∉ p1) (hp2Nl : '\n' ∉ p2)
    (hn1Trim : trimSpace n1 = n1) (hn2Trim : trimSpace n2 = n2)
    (hn1Nl : '\n' ∉ n1) (hn2Nl : '\n' ∉ n2)
    (hn1Inf : containsSub n1 credTag = false) (hn2Inf : containsSub n2 credTag = false)
    (hP1inf : containsSub (ensureSlash (expandPathGo hd p1)) credTag = false)
    (hP2inf : containsSub (ensureSlash (expandPathGo hd p2)) credTag = false)
    (hcred1 : lookupAssoc creds n1 = none)
    (hcred2 : lookupAssoc creds n2 = some c2) :
    LoadExistingIdentities ⟨some (joinLines [startMarker, headerLine hd p1,
        pathLine hd n1, headerLine hd p2, pathLine hd n2, endMarker]), creds⟩ =
      ⟨[(n2, ⟨n2, c2.gitName, c2.email, [normalizePath hd p2]⟩)], none⟩ := by
  set L : List Str := [startMarker, headerLine hd p1, pathLine hd n1,
    headerLine hd p2, pathLine hd n2, endMarker] with hL
  set fs : FS := ⟨some (joinLines L), creds⟩ with hfs
  have hcontent : readGitConfig fs = L := by
    show splitLines (joinLines L) = L
    apply splitLines_joinLines (by simp [hL])
    intro l hl
    rw [hL] at hl
    simp only [List.mem_cons, List.not_mem_nil, or_false] at hl
    rcases hl with h | h | h | h | h | h
    all_goals subst h
    · decide
    · exact no_newline_headerLine hhdNl hp1Nl
    · exact no_newline_pathLine hhdNl hn1Nl
    · exact no_newline_headerLine hhdNl hp2Nl
    · exact no_newline_pathLine hhdNl hn2Nl
    · decide
  have hfind : findGitIDSection L = (((0 : Nat) : Int), ((5 : Nat) : Int)) := by
    rw [hL]
    unfold findGitIDSection
    rw [show ([startMarker, headerLine hd p1, pathLine hd n1, headerLine hd p2,
        pathLine hd n2, endMarker] : List Str) = startMarker :: (headerLine hd p1 ::
        (pathLine hd n1 :: (headerLine hd p2 :: (pathLine hd n2 ::
        (endMarker :: []))))) from rfl]
    rw [findAux_cons_start startMarker_is_marker,
      findAux_cons_skip (headerLine_ne_markers hd p1).1 (headerLine_ne_markers hd p1).2,
      findAux_cons_skip (pathLine_ne_markers hd n1 hn1Trim).1
        (pathLine_ne_markers hd n1 hn1Trim).2,
      findAux_cons_skip (headerLine_ne_markers hd p2).1 (headerLine_ne_markers hd p2).2,
      findAux_cons_skip (pathLine_ne_markers hd n2 hn2Trim).1
        (pathLine_ne_markers hd n2 hn2Trim).2,
      findAux_cons_end endMarker_is_marker]
  have hslice : intSlice L (((0 : Nat) : Int) + 1) ((5 : Nat) : Int) =
      [headerLine hd p1, pathLine hd n1, headerLine hd p2, pathLine hd n2] := by
    have hcast : (((0 : Nat) : Int) + 1) = ((1 : Nat) : Int) := by norm_num
    rw [hcast, intSlice_natCast, hL]
    rfl
  have hfold : List.foldl (parseGitIDLine fs) ⟨[], []⟩
      [headerLine hd p1, pathLine hd n1, headerLine hd p2, pathLine hd n2] =
      ⟨[(n2, ⟨n2, c2.gitName, c2.email, [normalizePath hd p2]⟩)], []⟩ := by
    have hcreds : fs.creds = creds := rfl
    simp only [List.foldl_cons, List.foldl_nil]
    rw [parseGitIDLine_headerLine fs ⟨[], []⟩ hd p1 hP1inf]
    rw [parseGitIDLine_pathLine_missing fs _ hd n1 hhdDot hn1Inf hn1Trim
      (by rw [hcreds]; exact hcred1)]
    rw [parseGitIDLine_headerLine fs ⟨_, _⟩ hd p2 hP2inf]
    rw [parseGitIDLine_pathLine_found fs _ hd n2 c2 hhdDot hn2Inf hn2Trim
      (by rw [hcreds]; exact hcred2)]
    simp [updateAssoc]
  unfold LoadExistingIdentities
  rw [hcontent]
  dsimp only
  rw [hfind]
  have hne : ¬(((0 : Nat) : Int) = -1) := by omega
  dsimp only
  rw [if_neg hne, hslice, hfold]

/-- Witness for the C7 amended theorem at concrete names and paths. -/
theorem c7_witness :
    LoadExistingIdentities ⟨some (joinLines [startMarker,
        headerLine "/home/u".data "/a".data, pathLine "/home/u".data "ghost".data,
        headerLine "/home/u".data "/b".data, pathLine "/home/u".data "jane".data,
        endMarker]),
      [("jane".data, ⟨"Jane".data, "jane@x".data⟩)]⟩ =
      ⟨[("jane".data, ⟨"jane".data, "Jane".data, "jane@x".data,
          [normalizePath "/home/u".data "/b".data]⟩)], none⟩ :=
  c7_amended_reset_on_every_path_line "/home/u".data "ghost".data "jane".data
    "/a".data "/b".data [("jane".data, ⟨"Jane".data, "jane@x".data⟩)]
    ⟨"Jane".data, "jane@x".data⟩
    (by decide) (by decide) (by decide) (by decide) (by decide) (by decide)
    (by decide) (by decide) (by decide) (by decide) (by decide) (by decide)
    (by decide) (by decide)

/-- C1 counterexample: adding "work" with the two paths /a and /b through the
registry against an absent config file succeeds, but reloading yields a
record whose path set is only /b.  The editor writes one header/path pair per
path, so the load parser emits (and overwrites) one record per pair, each
carrying only the path of its own pair; the path /a of the first pair is
lost, so the reloaded path set differs from the added one. -/
theorem c1_counterexample_two_paths :
    (AddIdentity ⟨[], some (realCM "/home/u".data)⟩ (⟨none, []⟩ : FS) "work".data
        "J".data "j@co".data ["/a".data, "/b".data]).1 = none ∧
    (LoadExistingIdentities (AddIdentity ⟨[], some (realCM "/home/u".data)⟩
        (⟨none, []⟩ : FS) "work".data "J".data "j@co".data
        ["/a".data, "/b".data]).2.2).identities =
      [("work".data, ⟨"work".data, "J".data, "j@co".data, ["/b".data]⟩)] := by
  decide

/-- C1 amended: the round trip holds for an identity with a SINGLE path, a
name without surrounding whitespace, embedded newline, or embedded credential
tag, a path and home directory without embedded newline (no dot in the home
directory, no credential tag in the normalized path), against a prior config
none of whose lines is a marker line: add succeeds, and reload yields exactly
one record for that name with the original display name, email, and the
singleton path set after normalization. -/
theorem c1_amended_roundtrip_single_path
    (hd n d e p : Str) (fs : FS) (m : Manager FS)
    (hcm : m.configManager = some (realCM hd))
    (hnew : lookupAssoc m.identities n = none)
    (hnTrim : trimSpace n = n)
    (hnInf : containsSub n credTag = false)
    (hnNl : '\n' ∉ n)
    (hpNl : '\n' ∉ p)
    (hhdNl : '\n' ∉ hd)
    (hhdDot : ∀ a ∈ hd, a ≠ '.')
    (hPinf : containsSub (ensureSlash (expandPathGo hd p)) credTag = false)
    (hcfg : ∀ l ∈ readGitConfig fs, trimSpace l ≠ startMarker ∧ trimSpace l ≠ endMarker) :
    (AddIdentity m fs n d e [p]).1 = none ∧
    LoadExistingIdentities (AddIdentity m fs n d e [p]).2.2 =
      ⟨[(n, ⟨n, d, e, [normalizePath hd p]⟩)], none⟩ ∧
    lookupAssoc (LoadIdentities (AddIdentity m fs n d e [p]).2.1
        (LoadExistingIdentities (AddIdentity m fs n d e [p]).2.2).identities).identities n =
      some ⟨n, d, e, [normalizePath hd p]⟩ := by
  have hadd : AddIdentity m fs n d e [p] =
      (none, { m with identities := updateAssoc m.identities n ⟨n, d, e, [p]⟩ },
        AddIncludeIf hd ⟨n, d, e, [p]⟩ fs) := by
    unfold AddIdentity
    rw [hnew, hcm]
    rfl
  set C := readGitConfig fs with hC
  set L2 : List Str := C ++ [[]] ++ [startMarker] ++
    [headerLine hd p, pathLine hd n] ++ [endMarker] with hL2
  have hfs2 : AddIncludeIf hd ⟨n, d, e, [p]⟩ fs =
      ⟨some (joinLines L2), updateAssoc fs.creds n ⟨d, e⟩⟩ := by
    unfold AddIncludeIf createIdentityFile addIncludeIfEntry
    have hrg : readGitConfig { fs with creds := updateAssoc fs.creds n ⟨d, e⟩ } =
        readGitConfig fs := rfl
    dsimp only
    rw [hrg, ← hC]
    have hfind0 : findGitIDSection C = (-1, -1) := by
      unfold findGitIDSection
      have := findAux_append_skip hcfg [] 0 (-1)
      simpa using this
    rw [hfind0]
    dsimp only
    rw [if_pos rfl]
    simp [newEntries, writeGitConfig, hL2]
  have hL2lines : ∀ l ∈ L2, '\n' ∉ l := by
    intro l hl
    rw [hL2] at hl
    rcases List.mem_append.mp hl with h1 | h2
    · rcases List.mem_append.mp h1 with h3 | h4
      · rcases List.mem_append.mp h3 with h5 | h6
        · rcases List.mem_append.mp h5 with h7 | h8
          · exact readGitConfig_no_newline fs l h7
          · simp only [List.mem_singleton] at h8
            subst h8
            simp
        · simp only [List.mem_singleton] at h6
          subst h6
          decide
      · simp only [List.mem_cons, List.not_mem_nil, or_false] at h4
        rcases h4 with h9 | h9
        · subst h9
          exact no_newline_headerLine hhdNl hpNl
        · subst h9
          exact no_newline_pathLine hhdNl hnNl
    · simp only [List.mem_singleton] at h2
      subst h2
      decide
  have hcontent2 : readGitConfig ⟨some (joinLines L2), updateAssoc fs.creds n ⟨d, e⟩⟩ = L2 := by
    show splitLines (joinLines L2) = L2
    apply splitLines_joinLines ?_ hL2lines
    rw [hL2]
    simp
  have hA2 : ∀ l ∈ C ++ [[]], trimSpace l ≠ startMarker ∧ trimSpace l ≠ endMarker := by
    intro l hl
    rcases List.mem_append.mp hl with h1 | h2
    · exact hcfg l h1
    · simp only [List.mem_singleton] at h2
      subst h2
      exact nil_ne_markers
  have hfind2 : findGitIDSection L2 =
      (((C.length + 1 : Nat) : Int), ((C.length + 4 : Nat) : Int)) := by
    unfold findGitIDSection
    rw [show L2 = (C ++ [[]]) ++ (startMarker :: ([headerLine hd p, pathLine hd n] ++
        (endMarker :: []))) from by rw [hL2]; simp]
    rw [findAux_append_skip hA2, findAux_cons_start startMarker_is_marker,
      findAux_append_skip (by
        intro l hl
        simp only [List.mem_cons, List.not_mem_nil, or_false] at hl
        rcases hl with h9 | h9
        · subst h9
          exact headerLine_ne_markers hd p
        · subst h9
          exact pathLine_ne_markers hd n hnTrim),
      findAux_cons_end endMarker_is_marker]
    simp only [Prod.mk.injEq, List.length_append, List.length_cons, List.length_nil,
      List.length_singleton]
    constructor <;> (norm_cast; omega)
  have hslice2 : intSlice L2 (((C.length + 1 : Nat) : Int) + 1)
      ((C.length + 4 : Nat) : Int) = [headerLine hd p, pathLine hd n] := by
    have hcast : (((C.length + 1 : Nat) : Int) + 1) = ((C.length + 2 : Nat) : Int) := by
      push_cast
      ring
    rw [hcast, intSlice_natCast]
    have hgroup : L2 = (C ++ [[]] ++ [startMarker]) ++
        [headerLine hd p, pathLine hd n] ++ [endMarker] := by
      rw [hL2]
    rw [hgroup]
    have hx : C.length + 2 = (C ++ [[]] ++ [startMarker]).length := by
      simp
    have hy : C.length + 4 = (C ++ [[]] ++ [startMarker]).length +
        ([headerLine hd p, pathLine hd n] : List Str).length := by
      simp
    rw [hx, hy]
    exact slice_exact _ _ _
  have hfold2 : List.foldl
      (parseGitIDLine ⟨some (joinLines L2), updateAssoc fs.creds n ⟨d, e⟩⟩) ⟨[], []⟩
      [headerLine hd p, pathLine hd n] =
      ⟨[(n, ⟨n, d, e, [normalizePath hd p]⟩)], []⟩ := by
    simp only [List.foldl_cons, List.foldl_nil]
    rw [parseGitIDLine_headerLine _ ⟨[], []⟩ hd p hPinf]
    rw [parseGitIDLine_pathLine_found _ _ hd n ⟨d, e⟩ hhdDot hnInf hnTrim
      (lookupAssoc_update_self fs.creds n ⟨d, e⟩)]
    simp [updateAssoc]
  have hload2 : LoadExistingIdentities ⟨some (joinLines L2), updateAssoc fs.creds n ⟨d, e⟩⟩ =
      ⟨[(n, ⟨n, d, e, [normalizePath hd p]⟩)], none⟩ := by
    unfold LoadExistingIdentities
    rw [hcontent2]
    dsimp only
    rw [hfind2]
    have hne : ¬(((C.length + 1 : Nat) : Int) = -1) := by omega
    dsimp only
    rw [if_neg hne, hslice2, hfold2]
  refine ⟨by rw [hadd], ?_, ?_⟩
  · rw [hadd]
    dsimp only
    rw [hfs2, hload2]
  · rw [hadd]
    dsimp only
    rw [hfs2, hload2]
    simp [LoadIdentities, lookupAssoc]

/-- Witness for the C1 amended theorem: add "work" with display name
"John Doe", email, and the path /home/u/work against a one-line config. -/
theorem c1_witness :
    (AddIdentity ⟨[], some (realCM "/home/u".data)⟩
        (⟨some "[user]".data, []⟩ : FS) "work".data "John Doe".data "j@co".data
        ["/home/u/work".data]).1 = none ∧
    LoadExistingIdentities (AddIdentity ⟨[], some (realCM "/home/u".data)⟩
        (⟨some "[user]".data, []⟩ : FS) "work".data "John Doe".data "j@co".data
        ["/home/u/work".data]).2.2 =
      ⟨[("work".data, ⟨"work".data, "John Doe".data, "j@co".data,
          [normalizePath "/home/u".data "/home/u/work".data]⟩)], none⟩ ∧
    lookupAssoc (LoadIdentities (AddIdentity ⟨[], some (realCM "/home/u".data)⟩
        (⟨some "[user]".data, []⟩ : FS) "work".data "John Doe".data "j@co".data
        ["/home/u/work".data]).2.1
        (LoadExistingIdentities (AddIdentity ⟨[], some (realCM "/home/u".data)⟩
          (⟨some "[user]".data, []⟩ : FS) "work".data "John Doe".data "j@co".data
          ["/home/u/work".data]).2.2).identities).identities "work".data =
      some ⟨"work".data, "John Doe".data, "j@co".data,
        [normalizePath "/home/u".data "/home/u/work".data]⟩ :=
  c1_amended_roundtrip_single_path "/home/u".data "work".data "John Doe".data
    "j@co".data "/home/u/work".data ⟨some "[user]".data, []⟩
    ⟨[], some (realCM "/home/u".data)⟩ rfl rfl (by decide) (by decide) (by decide)
    (by decide) (by decide) (by decide) (by decide) (by decide)

end GitID
